import Mathlib

/-!
Verification of the natural-language specification of `django-timed-tests`
against a shallow embedding of the repository.

The repository ships only its test suite (`tests/tests.py`) and `setup.py`;
the library module `django_timed_tests/runner.py` that the tests exercise is
not part of the sources available here.  Following the spec, that missing
module is modelled below: the result collector that hooks the host
framework's `startTest` / `addSuccess` callbacks and measures elapsed
wall-clock time with `time.perf_counter`, the aggregator that sums durations
per method / class / module, the reporter that formats fixed-width text
tables, and the runner adapter that adds the two command-line flags.  All
such definitions carry a doc comment starting with `Modelled from the
spec:`.  The helper `extract_tables` is translated from `tests/tests.py`
(at the granularity of output lines).
-/

namespace DjangoTimedTests

/-- Identity of a single test: its owning module, owning class and the
test method's name, mirroring how the Django/unittest runner identifies a
test case instance. -/
structure TestId where
  module : String
  klass : String
  method : String
deriving DecidableEq, Repr

/-- Outcome of one test execution as reported to the result object. -/
inductive Outcome where
  | success : Outcome
  | failure : Outcome
  | error : Outcome
deriving DecidableEq, Repr

/-- One observable step of a test run, as seen by the result collector:
the host framework calls `startTest`, wall-clock time passes while the test
body runs (`sleep`, as driven by `FakeTime.sleep` in the tests), and the
test finishes with `addSuccess`, `addFailure` or `addError`. -/
inductive RunStep where
  | startTest : TestId → RunStep
  | sleep : Int → RunStep
  | addSuccess : TestId → RunStep
  | addFailure : TestId → RunStep
  | addError : TestId → RunStep
deriving DecidableEq, Repr

/-- State of the result collector: the current `time.perf_counter` reading
(`FakeTime` drives it as an integer), the reading taken at the most recent
`startTest`, and the durations mapping accumulated so far. -/
structure CollectorState where
  clock : Int
  lastStart : Int
  durations : List (TestId × Int)
deriving DecidableEq, Repr

/-- Modelled from the spec: the result collector of the missing
`django_timed_tests/runner.py` "intercepts each successful test completion,
records elapsed wall-clock time per test".  `startTest` stores the current
`perf_counter` reading; `addSuccess` records `perf_counter() - start` keyed
by the test; failures and errors record nothing. -/
def step (s : CollectorState) : RunStep → CollectorState
  | RunStep.startTest _ => { s with lastStart := s.clock }
  | RunStep.sleep d => { s with clock := s.clock + d }
  | RunStep.addSuccess t =>
      { s with durations := s.durations ++ [(t, s.clock - s.lastStart)] }
  | RunStep.addFailure _ => s
  | RunStep.addError _ => s

/-- Run the collector over a whole sequence of steps. -/
def runSteps (steps : List RunStep) (s : CollectorState) : CollectorState :=
  steps.foldl step s

/-- Initial collector state: clock at zero, nothing recorded. -/
def initState : CollectorState :=
  { clock := 0, lastStart := 0, durations := [] }

/-- Total wall-clock time passing in a list of steps. -/
def sleepSum (steps : List RunStep) : Int :=
  steps.foldr (fun st acc =>
    match st with
    | RunStep.sleep d => d + acc
    | _ => acc) 0

/-- A step is pure passage of time. -/
def IsSleep (st : RunStep) : Prop :=
  ∃ d, st = RunStep.sleep d

/-- One test's execution, as scheduled by the host runner: the test, how
long its body runs, and its outcome. -/
structure TestExecution where
  test : TestId
  time : Int
  outcome : Outcome
deriving DecidableEq, Repr

/-- The callback sequence the host framework produces for one test:
`startTest`, the body running for `e.time`, then the outcome callback. -/
def traceOfExecution (e : TestExecution) : List RunStep :=
  [RunStep.startTest e.test, RunStep.sleep e.time,
    match e.outcome with
    | Outcome.success => RunStep.addSuccess e.test
    | Outcome.failure => RunStep.addFailure e.test
    | Outcome.error => RunStep.addError e.test]

/-- The callback sequence for a whole suite run sequentially. -/
def traceOfSuite (suite : List TestExecution) : List RunStep :=
  (suite.map traceOfExecution).flatten

/-- The durations mapping a suite run should produce according to the spec:
one entry per successful test, keyed by the test, with its running time. -/
def successDurations (suite : List TestExecution) : List (TestId × Int) :=
  suite.filterMap fun e =>
    if e.outcome = Outcome.success then some (e.test, e.time) else none

/-- The durations mapping produced by running a suite sequentially from the
initial state. -/
def durationsOf (suite : List TestExecution) : List (TestId × Int) :=
  (runSteps (traceOfSuite suite) initState).durations

/-- Insert a row into a list sorted by non-increasing duration, keeping it
sorted (stable insertion, matching a stable descending sort). -/
def insertRow {α : Type} (x : α × Int) : List (α × Int) → List (α × Int)
  | [] => [x]
  | y :: ys => if x.2 ≤ y.2 then y :: insertRow x ys else x :: y :: ys

/-- Modelled from the spec: report tables surface "the slowest tests", so
rows are sorted by non-increasing duration (stable insertion sort). -/
def sortRows {α : Type} (l : List (α × Int)) : List (α × Int) :=
  l.foldr insertRow []

/-- Modelled from the spec: the aggregator of the missing
`django_timed_tests/runner.py` "sums/collects per-group durations": one row
per distinct key, holding the sum of the durations of the entries with that
key. -/
def groupSum {κ : Type} [DecidableEq κ] (key : TestId → κ)
    (ds : List (TestId × Int)) : List (κ × Int) :=
  ((ds.map fun p => key p.1).dedup).map fun k =>
    (k, ((ds.filter fun p => key p.1 = k).map Prod.snd).sum)

/-- Grouping key for the per-module table: the owning module. -/
def moduleKey (t : TestId) : String := t.module

/-- Grouping key for the per-class table: owning module and class (a class
is identified by its module together with its name). -/
def classKey (t : TestId) : String × String := (t.module, t.klass)

/-- Modelled from the spec: the size of the "slowest N" table.  The value
is the constant the tests import from the missing
`django_timed_tests/runner.py`; the released package uses 10. -/
def NUM_SLOWEST_TESTS : Nat := 10

/-- The per-module table of the full report: summed per module, sorted by
non-increasing duration. -/
def moduleTable (ds : List (TestId × Int)) : List (String × Int) :=
  sortRows (groupSum moduleKey ds)

/-- The per-class table of the full report. -/
def classTable (ds : List (TestId × Int)) : List ((String × String) × Int) :=
  sortRows (groupSum classKey ds)

/-- The per-method table of the full report: one row per distinct test. -/
def methodTable (ds : List (TestId × Int)) : List (TestId × Int) :=
  sortRows (groupSum (fun t => t) ds)

/-- The rows of the default report: the `NUM_SLOWEST_TESTS` tests with the
largest recorded durations. -/
def slowestRows (ds : List (TestId × Int)) : List (TestId × Int) :=
  (sortRows ds).take NUM_SLOWEST_TESTS

/-- Display name of a class row: dotted module and class name. -/
def classLabel (k : String × String) : String := k.1 ++ "." ++ k.2

/-- Display name of a test-method row: dotted module, class and method. -/
def methodLabel (t : TestId) : String :=
  t.module ++ "." ++ t.klass ++ "." ++ t.method

/-- Modelled from the spec: the tables the report contains, as labelled
(name, duration) rows: with `--full-report` the module, class and method
tables in that order, otherwise the single "slowest N" table. -/
def tableRows (full_report : Bool) (ds : List (TestId × Int)) :
    List (List (String × Int)) :=
  if full_report then
    [moduleTable ds,
     (classTable ds).map fun p => (classLabel p.1, p.2),
     (methodTable ds).map fun p => (methodLabel p.1, p.2)]
  else
    [(slowestRows ds).map fun p => (methodLabel p.1, p.2)]

/-- Modelled from the spec: the reporter "formats tables as fixed-width
text"; one data row, delimited by pipe characters. -/
def renderRow (name : String) (d : Int) : String :=
  "| " ++ name ++ " | " ++ toString d ++ " |"

/-- Header line of a rendered table. -/
def tableHeader : String := "| Name | Duration (s) |"

/-- Horizontal rule line of a rendered table. -/
def tableRule : String := "|------|--------------|"

/-- A rendered table: header line, horizontal rule, then the data rows. -/
def renderTableLines (rows : List (String × Int)) : List String :=
  tableHeader :: tableRule :: (rows.map fun p => renderRow p.1 p.2)

/-- Join blocks of lines with a single blank line between consecutive
blocks (line-level model of joining texts with a double newline). -/
def joinBlank : List (List String) → List String
  | [] => []
  | [t] => t
  | t :: ts => t ++ [""] ++ joinBlank ts

/-- The notice printed when a report file was written. -/
def report_message (path : String) : String :=
  "Generated the timing tests report file: " ++ path

/-- What a run writes: the lines printed to the runner's output stream and
the files written, each with its lines. -/
structure RunOutput where
  stream : List String
  file_writes : List (String × List String)
deriving DecidableEq, Repr

/-- The full rendered report: all tables, blank-line separated. -/
def renderReport (full_report : Bool) (ds : List (TestId × Int)) : List String :=
  joinBlank ((tableRows full_report ds).map renderTableLines)

/-- Modelled from the spec: the reporter prints the report to the console
after the host runner's own summary (which ends with the `OK` status line),
"and optionally written to a file": when a report-file path is supplied the
report is also written there and a notice line is printed. -/
def runOutput (summary : List String) (full_report : Bool)
    (ds : List (TestId × Int)) (file_report : Option String) : RunOutput :=
  { stream := summary ++ ["OK"] ++ renderReport full_report ds
      ++ (match file_report with
          | none => []
          | some p => ["", report_message p]),
    file_writes := match file_report with
      | none => []
      | some p => [(p, renderReport full_report ds)] }

/-- Split a list of lines at blank lines (line-level model of Python's
`text.split("\n\n")`). -/
def splitOnBlank : List String → List (List String)
  | [] => [[]]
  | l :: rest =>
      if l = "" then [] :: splitOnBlank rest
      else
        match splitOnBlank rest with
        | [] => [[l]]
        | c :: cs => (l :: c) :: cs

/-- Drop blank lines at both ends (line-level model of Python's `strip`). -/
def stripLines (ls : List String) : List String :=
  ((ls.dropWhile fun l => l = "").reverse.dropWhile fun l => l = "").reverse

/-- Translation of `extract_tables` from `tests/tests.py`, at the
granularity of output lines: take the text after the `OK` status line,
split it at blank lines, and in each chunk skip the header and the
horizontal line, returning the data rows. -/
def extract_tables (stream_lines : List String) : List (List String) :=
  let tables_lines := (stream_lines.dropWhile fun l => l ≠ "OK").drop 1
  (splitOnBlank tables_lines).map fun table => (stripLines table).drop 2

/-- Modelled from the spec: the runner adapter "add[s] two command-line
flags (full report, report file path)" to the host framework's test
command. -/
def addedFlags : List String := ["--full-report", "--report-file"]

/-- Modelled from the spec: the value of the `full_report` option the
command handler receives: `True` exactly when `--full-report` was passed. -/
def parseFullReport (argv : List String) : Bool :=
  argv.contains "--full-report"

/-- Modelled from the spec: durations of a suite run under the host
framework's process pool: each worker runs its chunk of the suite
independently from a fresh collector, and the per-worker durations are
concatenated. -/
def mergedDurations (chunks : List (List TestExecution)) : List (TestId × Int) :=
  (chunks.map durationsOf).flatten

/-- A small concrete suite in the shape of the repository's example tests:
two modules, three classes, eleven test methods, where `test_..._X` runs
for `X` seconds. -/
def exampleSuite : List TestExecution :=
  [⟨⟨"tests.example_tests.tests_6", "DummyTestCase", "test_dummy_1"⟩, 1, Outcome.success⟩,
   ⟨⟨"tests.example_tests.tests_6", "DummyTestCase", "test_dummy_2"⟩, 2, Outcome.success⟩,
   ⟨⟨"tests.example_tests.tests_6", "DummyTestCase", "test_dummy_3"⟩, 3, Outcome.success⟩,
   ⟨⟨"tests.example_tests.tests_6", "DummyTestCase", "test_dummy_4"⟩, 4, Outcome.success⟩,
   ⟨⟨"tests.example_tests.tests_6", "OtherTestCase", "test_other_5"⟩, 5, Outcome.success⟩,
   ⟨⟨"tests.example_tests.tests_6", "OtherTestCase", "test_other_6"⟩, 6, Outcome.success⟩,
   ⟨⟨"tests.example_tests.tests_6", "OtherTestCase", "test_other_7"⟩, 7, Outcome.success⟩,
   ⟨⟨"tests.example_tests.tests_25", "SlowTestCase", "test_slow_8"⟩, 8, Outcome.success⟩,
   ⟨⟨"tests.example_tests.tests_25", "SlowTestCase", "test_slow_9"⟩, 9, Outcome.success⟩,
   ⟨⟨"tests.example_tests.tests_25", "SlowTestCase", "test_slow_10"⟩, 10, Outcome.success⟩,
   ⟨⟨"tests.example_tests.tests_25", "SlowTestCase", "test_slow_11"⟩, 11, Outcome.success⟩]

/-- A small concrete durations mapping used to instantiate theorems. -/
def exampleDurations : List (TestId × Int) :=
  [(⟨"tests.example_tests.tests_6", "DummyTestCase", "test_dummy_3"⟩, 3),
   (⟨"tests.example_tests.tests_6", "DummyTestCase", "test_dummy_2"⟩, 2),
   (⟨"tests.example_tests.tests_6", "OtherTestCase", "test_other_4"⟩, 4),
   (⟨"tests.example_tests.tests_25", "SlowTestCase", "test_slow_1"⟩, 1),
   (⟨"tests.example_tests.tests_25", "SlowTestCase", "test_slow_6"⟩, 6)]

theorem runSteps_append (a b : List RunStep) (s : CollectorState) :
    runSteps (a ++ b) s = runSteps b (runSteps a s) := by
  simp [runSteps, List.foldl_append]

theorem runSteps_nil (s : CollectorState) : runSteps [] s = s := rfl

theorem runSteps_cons (st : RunStep) (rest : List RunStep) (s : CollectorState) :
    runSteps (st :: rest) s = runSteps rest (step s st) := rfl

theorem clock_runSteps (steps : List RunStep) (s : CollectorState) :
    (runSteps steps s).clock = s.clock + sleepSum steps := by
  induction steps generalizing s with
  | nil => simp [runSteps, sleepSum]
  | cons st rest ih =>
      rw [runSteps_cons, ih]
      cases st with
      | startTest t => simp [step, sleepSum]
      | sleep d => simp [step, sleepSum]; ring
      | addSuccess t => simp [step, sleepSum]
      | addFailure t => simp [step, sleepSum]
      | addError t => simp [step, sleepSum]

theorem sleepOnly_runSteps (steps : List RunStep) (s : CollectorState)
    (h : ∀ st ∈ steps, IsSleep st) :
    runSteps steps s = { s with clock := s.clock + sleepSum steps } := by
  induction steps generalizing s with
  | nil => simp [runSteps, sleepSum]
  | cons st rest ih =>
      obtain ⟨d, rfl⟩ := h st (List.mem_cons_self st rest)
      have hrest : ∀ x ∈ rest, IsSleep x := fun x hx => h x (List.mem_cons_of_mem _ hx)
      show runSteps rest (step s (RunStep.sleep d)) = _
      rw [ih _ hrest]
      simp [step, sleepSum, add_assoc]

theorem durations_runSteps_trace (suite : List TestExecution) (s : CollectorState) :
    (runSteps (traceOfSuite suite) s).durations = s.durations ++ successDurations suite := by
  induction suite generalizing s with
  | nil => simp [traceOfSuite, successDurations, runSteps]
  | cons e rest ih =>
      have htr : traceOfSuite (e :: rest) = traceOfExecution e ++ traceOfSuite rest := by
        simp [traceOfSuite]
      rw [htr, runSteps_append, ih]
      have hdur : (runSteps (traceOfExecution e) s).durations
          = s.durations ++ (if e.outcome = Outcome.success then [(e.test, e.time)] else []) := by
        cases ho : e.outcome <;>
          simp [traceOfExecution, runSteps, step, ho]
      rw [hdur]
      have hsucc : successDurations (e :: rest)
          = (if e.outcome = Outcome.success then [(e.test, e.time)] else [])
            ++ successDurations rest := by
        cases ho : e.outcome <;> simp [successDurations, ho]
      rw [hsucc, List.append_assoc]

theorem durationsOf_eq (suite : List TestExecution) :
    durationsOf suite = successDurations suite := by
  simp [durationsOf, durations_runSteps_trace, initState]

/-- C1: for every test that completes successfully, the collector records in
the durations mapping, keyed by the test's identity (method, owning class,
owning module), the elapsed wall-clock duration between the `perf_counter`
reading at the test's start and the reading at its end. -/
theorem collector_records_elapsed_time (s : CollectorState) (t : TestId)
    (mid : List RunStep) (h : ∀ st ∈ mid, IsSleep st) :
    (runSteps ([RunStep.startTest t] ++ mid ++ [RunStep.addSuccess t]) s).durations
      = s.durations
        ++ [(t, (runSteps ([RunStep.startTest t] ++ mid ++ [RunStep.addSuccess t]) s).clock
                  - s.clock)] := by
  rw [runSteps_append, runSteps_append]
  have hstart : runSteps [RunStep.startTest t] s = { s with lastStart := s.clock } := rfl
  rw [hstart, sleepOnly_runSteps mid _ h]
  simp [runSteps, step, sleepSum]

/-- Witness for C1 at a concrete run: one test sleeping 3 seconds. -/
theorem collector_records_elapsed_time_witness :
    (runSteps ([RunStep.startTest ⟨"tests.example_tests.tests_6", "DummyTestCase", "test_dummy_3"⟩]
        ++ [RunStep.sleep 3]
        ++ [RunStep.addSuccess ⟨"tests.example_tests.tests_6", "DummyTestCase", "test_dummy_3"⟩])
        initState).durations
      = initState.durations
        ++ [(⟨"tests.example_tests.tests_6", "DummyTestCase", "test_dummy_3"⟩,
             (runSteps
                ([RunStep.startTest ⟨"tests.example_tests.tests_6", "DummyTestCase", "test_dummy_3"⟩]
                  ++ [RunStep.sleep 3]
                  ++ [RunStep.addSuccess
                        ⟨"tests.example_tests.tests_6", "DummyTestCase", "test_dummy_3"⟩])
                initState).clock - initState.clock)] :=
  collector_records_elapsed_time initState _ [RunStep.sleep 3]
    (by intro st hst; rw [List.mem_singleton] at hst; exact ⟨3, hst⟩)

/-- C2: the durations mapping contains entries only for tests that completed
successfully: a test all of whose executions fail or error gets no entry. -/
theorem failed_test_not_measured (suite : List TestExecution) (t : TestId)
    (h : ∀ e ∈ suite, e.test = t → e.outcome ≠ Outcome.success) :
    t ∉ (durationsOf suite).map Prod.fst := by
  rw [durationsOf_eq]
  intro hmem
  rcases List.mem_map.mp hmem with ⟨p, hp, hfst⟩
  rcases List.mem_filterMap.mp hp with ⟨e, he, hsome⟩
  by_cases ho : e.outcome = Outcome.success
  · rw [if_pos ho] at hsome
    have hpe : (e.test, e.time) = p := Option.some.inj hsome
    have ht : e.test = t := by rw [← hfst, ← hpe]
    exact h e he ht ho
  · rw [if_neg ho] at hsome
    exact Option.noConfusion hsome

/-- Witness for C2 at a concrete run: a failing and an erroring test record
nothing. -/
theorem failed_test_not_measured_witness :
    (⟨"tests.example_tests.tests_6", "DummyTestCase", "test_broken_2"⟩ : TestId) ∉
      (durationsOf
        [⟨⟨"tests.example_tests.tests_6", "DummyTestCase", "test_dummy_3"⟩, 3, Outcome.success⟩,
         ⟨⟨"tests.example_tests.tests_6", "DummyTestCase", "test_broken_2"⟩, 2, Outcome.failure⟩,
         ⟨⟨"tests.example_tests.tests_6", "DummyTestCase", "test_broken_2"⟩, 2, Outcome.error⟩]).map
        Prod.fst :=
  failed_test_not_measured _ _ (by decide)

theorem insertRow_perm {α : Type} (x : α × Int) (l : List (α × Int)) :
    (insertRow x l).Perm (x :: l) := by
  induction l with
  | nil => exact List.Perm.refl _
  | cons y ys ih =>
      by_cases hc : x.2 ≤ y.2
      · rw [insertRow, if_pos hc]
        exact (ih.cons y).trans (List.Perm.swap x y ys)
      · rw [insertRow, if_neg hc]

theorem sortRows_perm {α : Type} (l : List (α × Int)) : (sortRows l).Perm l := by
  induction l with
  | nil => exact List.Perm.refl _
  | cons x xs ih =>
      exact (insertRow_perm x (sortRows xs)).trans (ih.cons x)

theorem sortRows_length {α : Type} (l : List (α × Int)) :
    (sortRows l).length = l.length :=
  (sortRows_perm l).length_eq

theorem mem_sortRows {α : Type} {p : α × Int} {l : List (α × Int)} :
    p ∈ sortRows l ↔ p ∈ l :=
  (sortRows_perm l).mem_iff

theorem insertRow_pairwise {α : Type} (x : α × Int) (l : List (α × Int))
    (h : List.Pairwise (fun a b : α × Int => b.2 ≤ a.2) l) :
    List.Pairwise (fun a b : α × Int => b.2 ≤ a.2) (insertRow x l) := by
  induction l with
  | nil => simp [insertRow]
  | cons y ys ih =>
      rcases List.pairwise_cons.mp h with ⟨hy, hys⟩
      by_cases hc : x.2 ≤ y.2
      · rw [insertRow, if_pos hc]
        refine List.pairwise_cons.mpr ⟨?_, ih hys⟩
        intro z hz
        rcases List.mem_cons.mp ((insertRow_perm x ys).mem_iff.mp hz) with hz1 | hz1
        · rw [hz1]; exact hc
        · exact hy z hz1
      · rw [insertRow, if_neg hc]
        refine List.pairwise_cons.mpr ⟨?_, h⟩
        intro z hz
        rcases List.mem_cons.mp hz with hz1 | hz1
        · rw [hz1]; exact le_of_not_le hc
        · exact le_trans (hy z hz1) (le_of_not_le hc)

theorem sortRows_pairwise {α : Type} (l : List (α × Int)) :
    List.Pairwise (fun a b : α × Int => b.2 ≤ a.2) (sortRows l) := by
  induction l with
  | nil => simp [sortRows]
  | cons x xs ih => exact insertRow_pairwise x (sortRows xs) ih

theorem groupSum_length {κ : Type} [DecidableEq κ] (key : TestId → κ)
    (ds : List (TestId × Int)) :
    (groupSum key ds).length = ((ds.map fun p => key p.1).dedup).length := by
  simp [groupSum]

theorem mem_groupSum_eq_sum {κ : Type} [DecidableEq κ] (key : TestId → κ)
    (ds : List (TestId × Int)) (k : κ) (v : Int)
    (h : (k, v) ∈ groupSum key ds) :
    v = ((ds.filter fun p => key p.1 = k).map Prod.snd).sum := by
  rcases List.mem_map.mp h with ⟨k', _, heq⟩
  have hk : k' = k := congrArg Prod.fst heq
  have hv : v = ((ds.filter fun p => key p.1 = k').map Prod.snd).sum :=
    (congrArg Prod.snd heq).symm
  rw [hv, hk]

/-- C3: with the full-report option the report consists of exactly three
tables, in order per-module, per-class, per-method, with one row per
distinct module, class and test respectively. -/
theorem full_report_three_tables (ds : List (TestId × Int)) :
    tableRows true ds
        = [moduleTable ds,
           (classTable ds).map fun p => (classLabel p.1, p.2),
           (methodTable ds).map fun p => (methodLabel p.1, p.2)]
      ∧ (moduleTable ds).length = ((ds.map fun p => (p.1).module).dedup).length
      ∧ (classTable ds).length
          = ((ds.map fun p => ((p.1).module, (p.1).klass)).dedup).length
      ∧ (methodTable ds).length = ((ds.map Prod.fst).dedup).length := by
  refine ⟨rfl, ?_, ?_, ?_⟩
  · rw [moduleTable, sortRows_length, groupSum_length]; rfl
  · rw [classTable, sortRows_length, groupSum_length]; rfl
  · rw [methodTable, sortRows_length, groupSum_length]

/-- C5: every table the report prints, in the short report as well as in
the full one, has its rows ordered by non-increasing duration. -/
theorem report_rows_sorted (full_report : Bool) (ds : List (TestId × Int))
    (t : List (String × Int)) (ht : t ∈ tableRows full_report ds) :
    List.Pairwise (fun a b : String × Int => b.2 ≤ a.2) t := by
  have hmap : ∀ {β : Type} (f : β → String) (l : List (β × Int)),
      List.Pairwise (fun a b : β × Int => b.2 ≤ a.2) l →
      List.Pairwise (fun a b : String × Int => b.2 ≤ a.2)
        (l.map fun p => (f p.1, p.2)) := by
    intro β f l hl
    exact List.Pairwise.map _ (fun a b hab => hab) hl
  cases full_report with
  | true =>
      simp only [tableRows, if_pos, List.mem_cons, List.not_mem_nil, or_false] at ht
      rcases ht with rfl | rfl | rfl
      · exact sortRows_pairwise _
      · exact hmap _ _ (sortRows_pairwise _)
      · exact hmap _ _ (sortRows_pairwise _)
  | false =>
      simp only [tableRows, List.mem_cons, List.not_mem_nil, or_false,
        Bool.false_eq_true, if_false] at ht
      rw [ht]
      refine hmap _ _ ?_
      exact List.Pairwise.sublist (List.take_sublist _ _) (sortRows_pairwise ds)

/-- Witness for C5 at a concrete report: the slowest-tests table of a
concrete durations mapping is sorted by non-increasing duration. -/
theorem report_rows_sorted_witness :
    List.Pairwise (fun a b : String × Int => b.2 ≤ a.2)
      ((slowestRows exampleDurations).map fun p => (methodLabel p.1, p.2)) :=
  report_rows_sorted false exampleDurations _ (List.mem_singleton.mpr rfl)

theorem sum_snd_filter_split {α : Type} (p : α × Int → Bool) (l : List (α × Int)) :
    ((l.filter p).map Prod.snd).sum
        + ((l.filter fun a => !(p a)).map Prod.snd).sum
      = (l.map Prod.snd).sum := by
  induction l with
  | nil => simp
  | cons a l ih =>
      cases hp : p a with
      | true =>
          simp [List.filter_cons, hp]
          omega
      | false =>
          simp [List.filter_cons, hp]
          omega

theorem sum_over_nodup_keys {κ : Type} [DecidableEq κ] (key : TestId → κ) :
    ∀ (K : List κ) (l : List (TestId × Int)), K.Nodup →
      (∀ p ∈ l, key p.1 ∈ K) →
      (K.map fun k => ((l.filter fun p => key p.1 = k).map Prod.snd).sum).sum
        = (l.map Prod.snd).sum := by
  intro K
  induction K with
  | nil =>
      intro l _ hcov
      have hnil : l = [] := by
        cases l with
        | nil => rfl
        | cons a l => exact absurd (hcov a (List.mem_cons_self a l)) (List.not_mem_nil _)
      rw [hnil]; simp
  | cons k K ih =>
      intro l hnd hcov
      rcases List.nodup_cons.mp hnd with ⟨hk, hndK⟩
      have hsplit := sum_snd_filter_split (fun p => decide (key p.1 = k)) l
      have hcov' : ∀ p ∈ l.filter fun p => !(decide (key p.1 = k)), key p.1 ∈ K := by
        intro p hp
        rcases List.mem_filter.mp hp with ⟨hpl, hpk⟩
        rcases List.mem_cons.mp (hcov p hpl) with h1 | h1
        · exact absurd h1 (by simpa using hpk)
        · exact h1
      have hker : (K.map fun c => ((l.filter fun p => key p.1 = c).map Prod.snd).sum)
          = (K.map fun c =>
              (((l.filter fun p => !(decide (key p.1 = k))).filter
                  fun p => key p.1 = c).map Prod.snd).sum) := by
        apply List.map_congr_left
        intro c hc
        have hfil : (l.filter fun p => !(decide (key p.1 = k))).filter
              (fun p => key p.1 = c)
            = l.filter fun p => key p.1 = c := by
          rw [List.filter_filter]
          apply List.filter_congr
          intro p _
          have hck : c ≠ k := fun hh => hk (hh ▸ hc)
          by_cases h : key p.1 = c
          · simp [h, hck]
          · simp [h]
        rw [hfil]
      rw [List.map_cons, List.sum_cons, hker,
        ih (l.filter fun p => !(decide (key p.1 = k))) hndK hcov']
      exact hsplit

/-- C6: aggregation is by summation: each class row of the full report
shows the sum of the recorded durations of the class's test methods, and
each module row shows the sum of the durations of the classes the module
contains. -/
theorem aggregation_by_summation (ds : List (TestId × Int)) :
    (∀ k v, (k, v) ∈ classTable ds →
        v = ((ds.filter fun p => classKey p.1 = k).map Prod.snd).sum)
  ∧ (∀ m v, (m, v) ∈ moduleTable ds →
        v = (((classTable ds).filter fun q => q.1.1 = m).map Prod.snd).sum) := by
  constructor
  · intro k v hkv
    exact mem_groupSum_eq_sum classKey ds k v (mem_sortRows.mp hkv)
  · intro m v hmv
    have hv : v = ((ds.filter fun p => moduleKey p.1 = m).map Prod.snd).sum :=
      mem_groupSum_eq_sum moduleKey ds m v (mem_sortRows.mp hmv)
    have hperm : ((classTable ds).filter fun q => q.1.1 = m).Perm
        ((groupSum classKey ds).filter fun q => q.1.1 = m) :=
      List.Perm.filter _ (sortRows_perm _)
    have hsum1 : (((classTable ds).filter fun q => q.1.1 = m).map Prod.snd).sum
        = (((groupSum classKey ds).filter fun q => q.1.1 = m).map Prod.snd).sum :=
      (hperm.map Prod.snd).sum_eq
    have hflt : (groupSum classKey ds).filter (fun q => q.1.1 = m)
        = ((((ds.map fun p => classKey p.1).dedup).filter fun k => k.1 = m).map
            fun k => (k, ((ds.filter fun p => classKey p.1 = k).map Prod.snd).sum)) := by
      rw [groupSum, List.filter_map]
      rfl
    have hK : ∀ k ∈ ((ds.map fun p => classKey p.1).dedup).filter fun k => k.1 = m,
        (ds.filter fun p => classKey p.1 = k)
          = (ds.filter fun p => moduleKey p.1 = m).filter fun p => classKey p.1 = k := by
      intro k hkK
      have hkm : k.1 = m := by
        have := (List.mem_filter.mp hkK).2
        exact of_decide_eq_true this
      rw [List.filter_filter]
      apply List.filter_congr
      intro p _
      by_cases h : classKey p.1 = k
      · have hpm : moduleKey p.1 = m := by
          rw [moduleKey, ← hkm, ← h]
          rfl
        simp [h, hpm]
      · simp [h]
    have hcov : ∀ p ∈ ds.filter fun p => moduleKey p.1 = m,
        classKey p.1 ∈ ((ds.map fun q => classKey q.1).dedup).filter fun k => k.1 = m := by
      intro p hp
      rcases List.mem_filter.mp hp with ⟨hpl, hpm⟩
      refine List.mem_filter.mpr ⟨?_, ?_⟩
      · exact List.mem_dedup.mpr (List.mem_map.mpr ⟨p, hpl, rfl⟩)
      · have : moduleKey p.1 = m := of_decide_eq_true hpm
        exact decide_eq_true this
    have hpart := sum_over_nodup_keys classKey
      (((ds.map fun p => classKey p.1).dedup).filter fun k => k.1 = m)
      (ds.filter fun p => moduleKey p.1 = m)
      (List.Nodup.filter _ (List.nodup_dedup _)) hcov
    rw [hv, hsum1, hflt, List.map_map, ← hpart]
    apply congrArg List.sum
    apply List.map_congr_left
    intro k hkK
    rw [← hK k hkK]
    rfl

/-- Witness for C6 at a concrete durations mapping: the class
`DummyTestCase` row sums its two methods, and the `tests_6` module row sums
its two class rows. -/
theorem aggregation_by_summation_witness :
    (5 : Int) = ((exampleDurations.filter fun p =>
          classKey p.1 = ("tests.example_tests.tests_6", "DummyTestCase")).map
          Prod.snd).sum
  ∧ (9 : Int) = (((classTable exampleDurations).filter fun q =>
          q.1.1 = "tests.example_tests.tests_6").map Prod.snd).sum :=
  ⟨(aggregation_by_summation exampleDurations).1
      ("tests.example_tests.tests_6", "DummyTestCase") 5 (by decide),
   (aggregation_by_summation exampleDurations).2
      "tests.example_tests.tests_6" 9 (by decide)⟩

/-- C4: without the full-report option the report is the single
slowest-tests table; it has exactly `NUM_SLOWEST_TESTS` rows whenever at
least that many tests completed successfully, its rows come from the
recorded durations, and every row not shown has a duration no larger than
any shown row. -/
theorem short_report_slowest (suite : List TestExecution) :
    tableRows false (durationsOf suite)
        = [(slowestRows (durationsOf suite)).map fun p => (methodLabel p.1, p.2)]
      ∧ (NUM_SLOWEST_TESTS ≤ (durationsOf suite).length →
          (slowestRows (durationsOf suite)).length = NUM_SLOWEST_TESTS)
      ∧ (∀ x ∈ slowestRows (durationsOf suite), x ∈ durationsOf suite)
      ∧ (∀ x ∈ slowestRows (durationsOf suite),
          ∀ y ∈ (sortRows (durationsOf suite)).drop NUM_SLOWEST_TESTS, y.2 ≤ x.2) := by
  refine ⟨rfl, ?_, ?_, ?_⟩
  · intro hn
    rw [slowestRows, List.length_take, sortRows_length]
    omega
  · intro x hx
    exact mem_sortRows.mp (List.Sublist.mem hx (List.take_sublist _ _))
  · intro x hx y hy
    have hpw := sortRows_pairwise (durationsOf suite)
    rw [← List.take_append_drop NUM_SLOWEST_TESTS (sortRows (durationsOf suite))] at hpw
    exact (List.pairwise_append.mp hpw).2.2 x hx y hy

/-- Witness for C4 at a concrete suite of eleven successful tests: the
short report keeps ten rows, a concrete slowest row is among the recorded
durations, and the one dropped row is no slower than a kept one. -/
theorem short_report_slowest_witness :
    (slowestRows (durationsOf exampleSuite)).length = NUM_SLOWEST_TESTS
  ∧ (⟨⟨"tests.example_tests.tests_25", "SlowTestCase", "test_slow_11"⟩, 11⟩
        : TestId × Int) ∈ durationsOf exampleSuite
  ∧ (1 : Int) ≤ 11 :=
  ⟨(short_report_slowest exampleSuite).2.1 (by decide),
   (short_report_slowest exampleSuite).2.2.1
      (⟨⟨"tests.example_tests.tests_25", "SlowTestCase", "test_slow_11"⟩, 11⟩)
      (by decide),
   (short_report_slowest exampleSuite).2.2.2
      (⟨⟨"tests.example_tests.tests_25", "SlowTestCase", "test_slow_11"⟩, 11⟩)
      (by decide)
      (⟨⟨"tests.example_tests.tests_6", "DummyTestCase", "test_dummy_1"⟩, 1⟩)
      (by decide)⟩

/-- C7: the runner adapter adds two command-line flags, and the command
handler receives `full_report = True` exactly when `--full-report` was
passed on the command line. -/
theorem command_flags (args : List String) (h : "--full-report" ∉ args) :
    addedFlags.length = 2
  ∧ parseFullReport (args ++ ["--full-report"]) = true
  ∧ parseFullReport args = false := by
  refine ⟨rfl, ?_, ?_⟩
  · simp [parseFullReport]
  · simp [parseFullReport, List.contains, List.elem_eq_mem, h]

/-- Witness for C7 at a concrete invocation: calling the test command on
the example suite with and without `--full-report`. -/
theorem command_flags_witness :
    addedFlags.length = 2
  ∧ parseFullReport (["tests.example_tests"] ++ ["--full-report"]) = true
  ∧ parseFullReport ["tests.example_tests"] = false :=
  command_flags ["tests.example_tests"] (by decide)

/-- C8: the report is always printed to the output stream; exactly when a
report-file path is supplied, the report is also written to that file and
the notice line is printed, the stream being otherwise identical. -/
theorem report_file_output (summary : List String) (fr : Bool)
    (ds : List (TestId × Int)) (p : String) :
    (runOutput summary fr ds (some p)).stream
        = (runOutput summary fr ds none).stream ++ ["", report_message p]
  ∧ (∃ pre post, (runOutput summary fr ds (some p)).stream
        = pre ++ renderReport fr ds ++ post)
  ∧ (∃ pre post, (runOutput summary fr ds none).stream
        = pre ++ renderReport fr ds ++ post)
  ∧ (runOutput summary fr ds (some p)).file_writes = [(p, renderReport fr ds)]
  ∧ (runOutput summary fr ds none).file_writes = [] := by
  refine ⟨?_, ⟨summary ++ ["OK"], ["", report_message p], ?_⟩,
    ⟨summary ++ ["OK"], [], ?_⟩, rfl, rfl⟩ <;> simp [runOutput]

/-- C9: running the suite split across parallel workers and concatenating
the workers' results yields the same durations mapping, and hence the same
report tables, as the sequential run. -/
theorem parallel_matches_sequential (chunks : List (List TestExecution))
    (suite : List TestExecution) (h : chunks.flatten = suite) :
    mergedDurations chunks = durationsOf suite
  ∧ ∀ fr, tableRows fr (mergedDurations chunks) = tableRows fr (durationsOf suite) := by
  have h1 : mergedDurations chunks = durationsOf suite := by
    rw [mergedDurations, ← h, durationsOf_eq]
    have h2 : chunks.map durationsOf = chunks.map successDurations :=
      List.map_congr_left fun c _ => durationsOf_eq c
    rw [h2, successDurations, List.filterMap_flatten]
    rfl
  exact ⟨h1, fun fr => by rw [h1]⟩

/-- Witness for C9 at a concrete partition: the example suite split over
three workers produces the sequential durations mapping. -/
theorem parallel_matches_sequential_witness :
    mergedDurations
        [exampleSuite.take 4, (exampleSuite.drop 4).take 4, exampleSuite.drop 8]
      = durationsOf exampleSuite :=
  (parallel_matches_sequential
      [exampleSuite.take 4, (exampleSuite.drop 4).take 4, exampleSuite.drop 8]
      exampleSuite (by decide)).1

theorem dropWhile_until_ok (summary rest : List String)
    (h : ∀ l ∈ summary, l ≠ "OK") :
    (summary ++ "OK" :: rest).dropWhile (fun l => l ≠ "OK") = "OK" :: rest := by
  induction summary with
  | nil => simp [List.dropWhile_cons]
  | cons a as ih =>
      have ha : a ≠ "OK" := h a (List.mem_cons_self a as)
      have has : ∀ l ∈ as, l ≠ "OK" := fun l hl => h l (List.mem_cons_of_mem _ hl)
      rw [List.cons_append, List.dropWhile_cons, if_pos (by simp [ha])]
      exact ih has

theorem splitOnBlank_no_blank (t : List String) (h : "" ∉ t) :
    splitOnBlank t = [t] := by
  induction t with
  | nil => rfl
  | cons l ls ih =>
      have hl : l ≠ "" := fun hh => h (hh ▸ List.mem_cons_self l ls)
      have hls : "" ∉ ls := fun hh => h (List.mem_cons_of_mem _ hh)
      simp [splitOnBlank, hl, ih hls]

theorem splitOnBlank_cons_blocks (t J : List String) (h : "" ∉ t) :
    splitOnBlank (t ++ "" :: J) = t :: splitOnBlank J := by
  induction t with
  | nil => simp [splitOnBlank]
  | cons l ls ih =>
      have hl : l ≠ "" := fun hh => h (hh ▸ List.mem_cons_self l ls)
      have hls : "" ∉ ls := fun hh => h (List.mem_cons_of_mem _ hh)
      simp [splitOnBlank, hl, ih hls]

theorem splitOnBlank_joinBlank (ts : List (List String)) (hne : ts ≠ [])
    (h : ∀ t ∈ ts, "" ∉ t) :
    splitOnBlank (joinBlank ts) = ts := by
  induction ts with
  | nil => cases hne rfl
  | cons t ts ih =>
      cases ts with
      | nil =>
          show splitOnBlank (joinBlank [t]) = [t]
          rw [joinBlank]
          exact splitOnBlank_no_blank t (h t (List.mem_cons_self t []))
      | cons t2 ts2 =>
          have hjoin : joinBlank (t :: t2 :: ts2) = t ++ "" :: joinBlank (t2 :: ts2) := by
            show t ++ [""] ++ joinBlank (t2 :: ts2) = t ++ "" :: joinBlank (t2 :: ts2)
            simp
          rw [hjoin,
            splitOnBlank_cons_blocks t _ (h t (List.mem_cons_self t _)),
            ih (List.cons_ne_nil _ _) (fun u hu => h u (List.mem_cons_of_mem _ hu))]

theorem dropWhile_blank_of_no_blank (t : List String) (h : "" ∉ t) :
    t.dropWhile (fun l => l = "") = t := by
  cases t with
  | nil => rfl
  | cons a as =>
      have ha : a ≠ "" := fun hh => h (hh ▸ List.mem_cons_self a as)
      simp [List.dropWhile_cons, ha]

theorem stripLines_no_blank (t : List String) (h : "" ∉ t) :
    stripLines t = t := by
  rw [stripLines, dropWhile_blank_of_no_blank t h,
    dropWhile_blank_of_no_blank t.reverse (fun hh => h (List.mem_reverse.mp hh)),
    List.reverse_reverse]

theorem renderRow_ne_empty (n : String) (d : Int) : renderRow n d ≠ "" := by
  intro hh
  have h2 := congrArg String.length hh
  rw [renderRow] at h2
  simp only [String.length_append] at h2
  have h3 : ("| ").length = 2 := rfl
  have h4 : ("").length = 0 := rfl
  omega

theorem renderTableLines_no_blank (rows : List (String × Int)) :
    "" ∉ renderTableLines rows := by
  intro hmem
  rcases List.mem_cons.mp hmem with h1 | hmem2
  · exact (by decide : tableHeader ≠ "") h1.symm
  · rcases List.mem_cons.mp hmem2 with h2 | hmem3
    · exact (by decide : tableRule ≠ "") h2.symm
    · rcases List.mem_map.mp hmem3 with ⟨p, _, hp⟩
      exact renderRow_ne_empty p.1 p.2 hp

/-- C10: the report tables are appended to the output stream after the
host runner's `OK` status line, blank-line separated, each with a header
and a horizontal rule followed by pipe-delimited data rows: the source's
`extract_tables` recovers from the stream exactly the data rows of every
table. -/
theorem tables_printed_after_ok (summary : List String) (fr : Bool)
    (ds : List (TestId × Int)) (h : ∀ l ∈ summary, l ≠ "OK") :
    extract_tables ((runOutput summary fr ds none).stream)
      = (tableRows fr ds).map fun rows => rows.map fun p => renderRow p.1 p.2 := by
  have hstream : (runOutput summary fr ds none).stream
      = summary ++ "OK" :: renderReport fr ds := by
    simp [runOutput]
  have hne : (tableRows fr ds).map renderTableLines ≠ [] := by
    cases fr <;> simp [tableRows]
  have hnb : ∀ t ∈ (tableRows fr ds).map renderTableLines, "" ∉ t := by
    intro t ht
    rcases List.mem_map.mp ht with ⟨rows, _, hrw⟩
    rw [← hrw]
    exact renderTableLines_no_blank rows
  rw [hstream, extract_tables, dropWhile_until_ok summary _ h]
  show (splitOnBlank (("OK" :: renderReport fr ds).drop 1)).map
      (fun table => (stripLines table).drop 2) = _
  rw [List.drop_one, List.tail_cons, renderReport,
    splitOnBlank_joinBlank _ hne hnb, List.map_map]
  apply List.map_congr_left
  intro rows _
  show (stripLines (renderTableLines rows)).drop 2 = _
  rw [stripLines_no_blank _ (renderTableLines_no_blank rows)]
  rfl

/-- Witness for C10 at a concrete run: extracting the tables of a short
report over a concrete durations mapping yields exactly its rendered data
rows. -/
theorem tables_printed_after_ok_witness :
    extract_tables ((runOutput ["Ran 5 tests in 0.005s"] false exampleDurations
        none).stream)
      = (tableRows false exampleDurations).map fun rows =>
          rows.map fun p => renderRow p.1 p.2 :=
  tables_printed_after_ok ["Ran 5 tests in 0.005s"] false exampleDurations
    (by decide)
